import Mathlib

/-!
Verification of the litematic gallery browser core (filter/sort pipeline, facet
preview counters, viewport windowing, scroll restoration, and the URL
query-string navigation codec).  All definitions below are a shallow embedding
of the application source (`App.tsx`): JavaScript strings are modelled as Lean
`String` (a wrapper around `List Char`), JavaScript numbers occurring in this
code are integers and are modelled as `Int`/`Nat`, and the small JS string
builtins used by the source (`toLowerCase`, `trim`, `split`, `includes`,
`parseInt`, `String(n)`, `Array.join`) are modelled explicitly below.
-/

namespace STBrowser

/-! ## JavaScript string primitives -/

/-- White-space test used by the model for JS `trim` and the `/\s+/` splitter
(the source only ever feeds it ordinary ASCII whitespace). -/
def isJsSpace (c : Char) : Bool := c = ' ' || c = '\t' || c = '\n' || c = '\r'

/-- Model of JS `String.prototype.toLowerCase` (ASCII case folding). -/
def jsToLower (s : String) : String := ⟨s.data.map Char.toLower⟩

/-- Characters of a string with leading and trailing whitespace removed;
model of JS `String.prototype.trim`. -/
def jsTrimChars (cs : List Char) : List Char :=
  ((cs.dropWhile isJsSpace).reverse.dropWhile isJsSpace).reverse

/-- Model of JS `String.prototype.trim`. -/
def jsTrim (s : String) : String := ⟨jsTrimChars s.data⟩

/-- Comma test for the facet-list separator. -/
def isComma (c : Char) : Bool := c = ','

/-- Model of JS `hay.includes(needle)`: substring test. -/
def containsSub (hay needle : List Char) : Bool := decide (needle <:+: hay)

/-- Split a character list at every character satisfying `p`
(model of JS `String.prototype.split` with a single-character separator;
splitting on each separator character and later dropping empty tokens is
also how the source uses `split(/\s+/)` followed by `filter(Boolean)`). -/
def splitOn1 (p : Char → Bool) : List Char → List (List Char)
  | [] => [[]]
  | c :: cs =>
    match splitOn1 p cs with
    | [] => [[c]]
    | h :: t => if p c then [] :: h :: t else (c :: h) :: t

/-! ## Decimal printing and parsing (JS `String(n)` and `Number.parseInt`) -/

/-- The decimal digit characters. -/
def digitChar : Nat → Char
  | 0 => '0' | 1 => '1' | 2 => '2' | 3 => '3' | 4 => '4'
  | 5 => '5' | 6 => '6' | 7 => '7' | 8 => '8' | _ => '9'

/-- Numeric value of a decimal digit character. -/
def digitVal (c : Char) : Nat := c.toNat - 48

/-- Fuel-driven digit printer (most significant first); the fuel argument only
serves to make the recursion structural, `natChars` supplies enough of it. -/
def natCharsAux : Nat → Nat → List Char
  | _, 0 => []
  | 0, _ => []
  | fuel + 1, n + 1 =>
    natCharsAux fuel ((n + 1) / 10) ++ [digitChar ((n + 1) % 10)]

/-- Decimal digits of `n`, most significant first. -/
def natChars (n : Nat) : List Char := if n = 0 then ['0'] else natCharsAux n n

/-- Model of JS `String(n)` for a non-negative integer `n`. -/
def natToString (n : Nat) : String := ⟨natChars n⟩

/-- Value of a most-significant-first list of decimal digit characters. -/
def digitsValue (cs : List Char) : Nat :=
  Nat.ofDigits 10 ((cs.map digitVal).reverse)

/-- Value of the leading run of decimal digits, `none` if there is none. -/
def digitPrefixVal (cs : List Char) : Option Nat :=
  if (cs.takeWhile Char.isDigit).isEmpty then none
  else some (digitsValue (cs.takeWhile Char.isDigit))

/-- Model of JS `Number.parseInt(s, 10)`: skip leading whitespace, read an
optional sign and then the longest run of decimal digits; `none` models `NaN`. -/
def jsParseIntChars (cs0 : List Char) : Option Int :=
  match cs0.dropWhile isJsSpace with
  | [] => none
  | c :: rest =>
    if c = '-' then (digitPrefixVal rest).map (fun n => -(n : Int))
    else if c = '+' then (digitPrefixVal rest).map (fun n => (n : Int))
    else (digitPrefixVal (c :: rest)).map (fun n => (n : Int))

/-- Model of JS `Number.parseInt(s, 10)` on a string. -/
def jsParseInt (s : String) : Option Int := jsParseIntChars s.data

/-! ## Data model

`Entry` embeds the normalized `LitematicEntry` record.  The derived
presentation-only path fields (`renderPath`, `filePath`) and the `dimensions`
triple are not consulted by any of the verified logic and are omitted. -/

/-- Normalized catalog entry (`LitematicEntry` in the source). -/
structure Entry where
  file : String
  author : String
  version : String
  size : String
  createdAt : Int
  id : String
  fileSizeBytes : Int
  dataVersion : Int
  hasImage : Bool
deriving DecidableEq

/-- Raw catalog entry as fetched (`RawLitematicEntry` in the source);
`timeCreated` is `string | number` in the JSON. -/
structure RawLitematicEntry where
  file : String
  author : String
  version : String
  size : String
  fileSizeBytes : Int
  dataVersion : Int
  timeCreated : String ⊕ Int
  hasImage : Bool
deriving DecidableEq

/-- Normalization of `timeCreated`: strings go through `Number.parseInt`
with `0` substituted when the result is not finite (`NaN`); numbers are
already finite in this model. -/
def normalizeCreatedAt : String ⊕ Int → Int
  | .inl s => (jsParseInt s).getD 0
  | .inr n => n

/-- Normalization of one raw entry at load-order index `idx`
(the `load` effect in the source): the identity is
`file + "-" + idx`. -/
def normalizeEntry (idx : Nat) (e : RawLitematicEntry) : Entry :=
  { file := e.file
    author := e.author
    version := e.version
    size := e.size
    createdAt := normalizeCreatedAt e.timeCreated
    id := e.file ++ "-" ++ natToString idx
    fileSizeBytes := e.fileSizeBytes
    dataVersion := e.dataVersion
    hasImage := e.hasImage }

/-- Normalization of a raw entry list starting at load-order index `idx`
(`json.entries.map((entry, idx) => ...)`). -/
def normalizeFrom (idx : Nat) : List RawLitematicEntry → List Entry
  | [] => []
  | e :: rest => normalizeEntry idx e :: normalizeFrom (idx + 1) rest

/-- The catalog produced by one successful load. -/
def loadEntries (raws : List RawLitematicEntry) : List Entry := normalizeFrom 0 raws

/-! ## Filter/sort pipeline -/

/-- The mutable facet-filter state.  The source keeps the four lists as React
state and converts non-empty ones to `Set`s; membership is unchanged by that
conversion, so the model keeps the lists. -/
structure FilterState where
  versionIncludes : List String
  versionExcludes : List String
  authorIncludes : List String
  authorExcludes : List String
deriving DecidableEq

/-- The filter state with no active constraint. -/
def FilterState.empty : FilterState := ⟨[], [], [], []⟩

/-- Sort keys (`"newest" | "oldest" | "az"`). -/
inductive SortKey
  | newest
  | oldest
  | az
deriving DecidableEq

/-- Search terms of the free-text query:
`q.toLowerCase().split(/\s+/).filter(Boolean)`. -/
def searchTermsOf (q : String) : List String :=
  ((splitOn1 isJsSpace (jsToLower q).data).map (fun cs => String.mk cs)).filter
    (fun t => t ≠ "")

/-- The composite haystack of `matchesSearch`:
`` `${file} ${author} ${version} ${size}`.toLowerCase() ``. -/
def searchHay (e : Entry) : List Char :=
  (jsToLower (e.file ++ " " ++ e.author ++ " " ++ e.version ++ " " ++ e.size)).data

/-- Model of `matchesSearch` from the source. -/
def matchesSearch (e : Entry) (terms : List String) : Bool :=
  terms.isEmpty || terms.all (fun t => containsSub (searchHay e) t.data)

/-- The per-entry predicate of the `filtered` memo, in source order:
version excludes, author excludes, version includes, author includes, then
the free-text search.  The `!isEmpty` guards model the source's `null`
exclude/include sets for empty lists. -/
def entryPasses (fs : FilterState) (terms : List String) (e : Entry) : Bool :=
  if !fs.versionExcludes.isEmpty && fs.versionExcludes.contains e.version then false
  else if !fs.authorExcludes.isEmpty && fs.authorExcludes.contains e.author then false
  else if !fs.versionIncludes.isEmpty && !fs.versionIncludes.contains e.version then false
  else if !fs.authorIncludes.isEmpty && !fs.authorIncludes.contains e.author then false
  else matchesSearch e terms

/-- Model of `a.localeCompare(b, undefined, \x7b sensitivity: "base" \x7d)`:
three-way comparison of the case-folded strings. -/
def strCmpBase (a b : String) : Int :=
  if jsToLower a < jsToLower b then -1
  else if jsToLower b < jsToLower a then 1
  else 0

/-- The sort comparator of the `filtered` memo. -/
def sortCmp (k : SortKey) (a b : Entry) : Int :=
  match k with
  | .oldest => a.createdAt - b.createdAt
  | .az => strCmpBase a.file b.file
  | .newest => b.createdAt - a.createdAt

/-- Fires exactly when the comparator lets `a` stay before `b`.  JS
`Array.prototype.sort` with a consistent comparator is a stable sort, which
for a total preorder has a unique result; the model realizes it with the
stable `List.insertionSort`. -/
def sortLE (k : SortKey) (a b : Entry) : Prop := sortCmp k a b ≤ 0

instance (k : SortKey) : DecidableRel (sortLE k) := fun a b =>
  inferInstanceAs (Decidable (sortCmp k a b ≤ 0))

/-- The `filtered` memo: filter the catalog, then sort the result. -/
def computeView (catalog : List Entry) (fs : FilterState) (q : String)
    (k : SortKey) : List Entry :=
  List.insertionSort (sortLE k)
    (catalog.filter (entryPasses fs (searchTermsOf q)))

/-! ## Facet preview lists (candidate-count preview sets) -/

/-- The `versionPreviewList` memo from the source: version excludes, author
excludes, author includes, search — version includes are not applied. -/
def versionPreviewList (catalog : List Entry) (fs : FilterState) (q : String) :
    List Entry :=
  catalog.filter (fun e =>
    if !fs.versionExcludes.isEmpty && fs.versionExcludes.contains e.version then false
    else if !fs.authorExcludes.isEmpty && fs.authorExcludes.contains e.author then false
    else if !fs.authorIncludes.isEmpty && !fs.authorIncludes.contains e.author then false
    else matchesSearch e (searchTermsOf q))

/-- The `authorPreviewList` memo from the source: version excludes, author
excludes, version includes, search — author includes are not applied. -/
def authorPreviewList (catalog : List Entry) (fs : FilterState) (q : String) :
    List Entry :=
  catalog.filter (fun e =>
    if !fs.versionExcludes.isEmpty && fs.versionExcludes.contains e.version then false
    else if !fs.authorExcludes.isEmpty && fs.authorExcludes.contains e.author then false
    else if !fs.versionIncludes.isEmpty && !fs.versionIncludes.contains e.version then false
    else matchesSearch e (searchTermsOf q))

/-- The preview set for the version facet as the specification describes it:
apply only the author facet's constraints and the search text, ignoring both
version include and version exclude choices. -/
def specVersionPreviewList (catalog : List Entry) (fs : FilterState) (q : String) :
    List Entry :=
  catalog.filter (fun e =>
    if !fs.authorExcludes.isEmpty && fs.authorExcludes.contains e.author then false
    else if !fs.authorIncludes.isEmpty && !fs.authorIncludes.contains e.author then false
    else matchesSearch e (searchTermsOf q))

/-! ## Windowing engine -/

/-- Number of materialized entries. -/
def WINDOW_SIZE : Nat := 200

/-- Rows of slack kept above the anchor. -/
def BUFFER_ROWS : Nat := 3

/-- Vertical gap between grid rows, in pixels. -/
def ROW_GAP : Nat := 16

/-- Retry budget of the element-location loop (`attempts < 10`). -/
def RETRY_CAP : Nat := 10

/-- The `windowEnd` computation, with the window size as a parameter. -/
def windowEndW (size len ws : Nat) : Nat := min len (ws + size)

/-- Model of `windowEnd = Math.min(filtered.length, windowStart + WINDOW_SIZE)`. -/
def windowEndOf (len ws : Nat) : Nat := windowEndW WINDOW_SIZE len ws

/-- The clamp effect re-run whenever `filtered.length` changes:
`setWindowStart(prev => Math.min(prev, Math.max(0, filtered.length - 1)))`.
On `Nat`, truncated subtraction realizes the inner `Math.max(0, len - 1)`. -/
def clampWindowStart (prev len : Nat) : Nat := min prev (len - 1)

/-- JS float division of two integers followed by `Math.floor`; for a
positive divisor this is Euclidean integer division. -/
def jsFloorDiv (a b : Int) : Int := a / b

/-- JS float division of two integers followed by `Math.ceil` (positive
divisor). -/
def jsCeilDiv (a b : Int) : Int := -((-a) / b)

/-- Model of `topRows = Math.floor(windowStart / cols)`. -/
def topRowsOf (ws cols : Nat) : Int := jsFloorDiv ws cols

/-- Model of `bottomRows = Math.ceil((filtered.length - windowEnd) / cols)`. -/
def bottomRowsOf (len we cols : Nat) : Int := jsCeilDiv ((len : Int) - we) cols

/-- Model of `topSpacer = Math.max(0, topRows * approxRowHeight)`. -/
def topSpacerOf (ws cols rowH : Nat) : Int := max 0 (topRowsOf ws cols * rowH)

/-- Model of `bottomSpacer = Math.max(0, bottomRows * approxRowHeight)`. -/
def bottomSpacerOf (len we cols rowH : Nat) : Int :=
  max 0 (bottomRowsOf len we cols * rowH)

/-- Model of `approxRowHeight = (measuredCardHeight || 360) + ROW_GAP`
(`0` is falsy in JS). -/
def approxRowHeightOf (measured : Option Nat) : Nat :=
  (match measured with
   | some h => if h = 0 then 360 else h
   | none => 360) + ROW_GAP

/-! ## Scroll restoration -/

/-- Outcome of one run of the pending-index restoration effect. -/
inductive RestoreAction
  | idle
  | scrollTop
  | locate (anchorIndex windowStart : Nat) (targetId : Option String)
deriving DecidableEq

/-- The restoration effect over `pendingIndex` (source lines 496-516):
no-op when no index is pending or the view is empty; clamp the target into
`[0, filtered.length - 1]`; a zero target scrolls straight to the top;
otherwise the anchor and window start are set directly from the target and
the element-location phase is entered with the target entry's id. -/
def restoreStep (pending : Option Int) (view : List Entry) (cols : Nat) :
    RestoreAction :=
  match pending with
  | none => .idle
  | some p =>
    if view.length = 0 then .idle
    else
      let idx : Nat := (max 0 (min ((view.length : Int) - 1) p)).toNat
      if idx = 0 then .scrollTop
      else .locate idx (idx - BUFFER_ROWS * cols) ((view.get? idx).map (·.id))

/-- Outcome of the element-location retry loop (`tryScroll`). -/
inductive ScrollOutcome
  | scrolled (frame : Nat)
  | gaveUp
deriving DecidableEq

/-- Value of `restoringRef` once the retry loop has finished: both the
found branch (after its settle timeout) and the budget-exhausted branch
clear the suppression flag. -/
def restoringAfter : ScrollOutcome → Bool
  | .scrolled _ => false
  | .gaveUp => false

/-- The `tryScroll` retry loop: `found f` tells whether the target element
is in the DOM on render frame `f`; `remaining` is the attempt budget left.
The source starts with 10 attempts (`attempts < 10`). -/
def tryScrollRun (found : Nat → Bool) (frame : Nat) : Nat → ScrollOutcome
  | 0 => .gaveUp
  | remaining + 1 =>
    if found frame then .scrolled frame
    else tryScrollRun found (frame + 1) remaining

/-! ## Navigation state codec -/

/-- Query string, modelled as ordered key-value pairs (percent-encoding by
`URLSearchParams` round-trips and is abstracted away). -/
abbrev Params : Type := List (String × String)

/-- Model of `URLSearchParams.get`: the value at the first occurrence of a
key, or `null`. -/
def getParam (sp : Params) (key : String) : Option String :=
  (List.find? (fun kv => kv.1 == key) sp).map (·.2)

/-- Keys the decoder reads. -/
def knownNavKeys : List String :=
  ["q", "sort", "vInc", "vExc", "aInc", "aExc", "preview", "idx"]

/-- Model of `parseListParam`. -/
def parseListParam (raw : Option String) : List String :=
  match raw with
  | none => []
  | some s =>
    if s = "" then []
    else ((splitOn1 isComma s.data).map
      (fun cs => jsTrim (String.mk cs))).filter (fun t => t ≠ "")

/-- Model of JS `Array.prototype.join(",")`. -/
def joinComma : List String → String
  | [] => ""
  | [v] => v
  | v :: rest => v ++ "," ++ joinComma rest

/-- Model of `listToParam`. -/
def listToParam (values : List String) : Option String :=
  if values = [] then none else some (joinComma values)

/-- Wire text of a sort key. -/
def sortKeyStr : SortKey → String
  | .newest => "newest"
  | .oldest => "oldest"
  | .az => "az"

/-- The guarded `setSortKey` of `applyParams`: only the three recognized
values update the key, anything else leaves the previous value. -/
def parseSort (prev : SortKey) (raw : Option String) : SortKey :=
  match raw with
  | none => prev
  | some s =>
    if s = "newest" then .newest
    else if s = "oldest" then .oldest
    else if s = "az" then .az
    else prev

/-- State written by `applyParams` (the inbound decode): the six filter/sort
fields plus the two pending refs. -/
structure NavDecoded where
  q : String
  sortKey : SortKey
  versionIncludes : List String
  versionExcludes : List String
  authorIncludes : List String
  authorExcludes : List String
  pendingPreviewId : Option String
  pendingIndex : Option Int
deriving DecidableEq

/-- Model of `applyParams` (source lines 393-408).  `prevSort` is the sort
key currently in state, kept when the `sort` parameter is absent or not
recognized.  `pendingIndex` models `scrollVal ? parseInt(scrollVal) || 0 :
null` (the empty string is falsy). -/
def applyParams (prevSort : SortKey) (sp : Params) : NavDecoded :=
  { q := (getParam sp "q").getD ""
    sortKey := parseSort prevSort (getParam sp "sort")
    versionIncludes := parseListParam (getParam sp "vInc")
    versionExcludes := parseListParam (getParam sp "vExc")
    authorIncludes := parseListParam (getParam sp "aInc")
    authorExcludes := parseListParam (getParam sp "aExc")
    pendingPreviewId := getParam sp "preview"
    pendingIndex :=
      match getParam sp "idx" with
      | none => none
      | some s => if s = "" then none else some ((jsParseInt s).getD 0) }

/-- Decode on initial load: every piece of state still holds its default, so
the previous sort key is the default `newest`. -/
def decodeParams (sp : Params) : NavDecoded := applyParams .newest sp

/-- In-memory state read by `buildParams`.  `anchorIndex` is a `Nat`: every
write of the React `anchorIndex` state in the source clamps with
`Math.max(0, …)`. -/
structure AppNavState where
  q : String
  sortKey : SortKey
  versionIncludes : List String
  versionExcludes : List String
  authorIncludes : List String
  authorExcludes : List String
  previewId : Option String
  anchorIndex : Nat
deriving DecidableEq

/-- One conditional `params.set(key, v)` call for an optional value
(`if (v) params.set(key, v)`). -/
def listSeg (key : String) (o : Option String) : Params :=
  match o with
  | some v => [(key, v)]
  | none => []

/-- The conditional `params.set("preview", preview.id)` call
(`if (preview?.id) …`; the empty string is falsy). -/
def previewSeg (o : Option String) : Params :=
  match o with
  | some pid => if pid ≠ "" then [("preview", pid)] else []
  | none => []

/-- Model of `buildParams` (source lines 426-442), in the source's `set`
order.  Guards: `q` only when its trim is truthy, `sort` only when not the
default, facet lists only when non-empty, `preview` only when an open
preview has a truthy id, and `idx` always (`Math.max(0, idx)` is the
identity on `Nat`). -/
def buildParams (st : AppNavState) : Params :=
  (if jsTrim st.q ≠ "" then [("q", st.q)] else [])
  ++ (if st.sortKey ≠ .newest then [("sort", sortKeyStr st.sortKey)] else [])
  ++ listSeg "vInc" (listToParam st.versionIncludes)
  ++ listSeg "vExc" (listToParam st.versionExcludes)
  ++ listSeg "aInc" (listToParam st.authorIncludes)
  ++ listSeg "aExc" (listToParam st.authorExcludes)
  ++ previewSeg st.previewId
  ++ [("idx", natToString st.anchorIndex)]

/-! ## Specification-side filter predicate (for the refinement claim) and
concrete scenario data -/

/-- The per-entry acceptance predicate exactly as the specification phrases
it: rejected if the entry's version or author is in the corresponding
non-empty exclude set; otherwise rejected if a non-empty include set exists
for a facet and the entry's value is absent from it; otherwise rejected
unless every search term occurs in the composite haystack. -/
def specPasses (fs : FilterState) (q : String) (e : Entry) : Bool :=
  if (!fs.versionExcludes.isEmpty && fs.versionExcludes.contains e.version)
      || (!fs.authorExcludes.isEmpty && fs.authorExcludes.contains e.author) then
    false
  else if (!fs.versionIncludes.isEmpty && !fs.versionIncludes.contains e.version)
      || (!fs.authorIncludes.isEmpty && !fs.authorIncludes.contains e.author) then
    false
  else (searchTermsOf q).all (fun t => containsSub (searchHay e) t.data)

/-- Helper for concrete scenario entries. -/
def mkEntry (file author version size : String) (createdAt : Int) (id : String) :
    Entry :=
  ⟨file, author, version, size, createdAt, id, 0, 0, false⟩

/-- Scenario entry with version `1.20`, created at epoch 100. -/
def entry120 : Entry := mkEntry "sorter.litematic" "alice" "1.20" "3x3x3" 100 "sorter.litematic-0"

/-- Scenario entry with version `1.21`, created at epoch 200. -/
def entry121 : Entry := mkEntry "loader.litematic" "bob" "1.21" "2x2x2" 200 "loader.litematic-1"

/-- Scenario B filter state: `versionIncludes = ["1.20"]`. -/
def fsIncl120 : FilterState := ⟨["1.20"], [], [], []⟩

/-- Scenario B filter state with the exclude added:
`versionIncludes = ["1.20"]`, `versionExcludes = ["1.20"]`. -/
def fsInclExcl120 : FilterState := ⟨["1.20"], ["1.20"], [], []⟩

/-- Filter state with only `versionExcludes = ["1.20"]`. -/
def fsExcl120 : FilterState := ⟨[], ["1.20"], [], []⟩

/-- In-memory navigation state whose version-include value contains a
comma. -/
def commaNavState : AppNavState :=
  ⟨"", .newest, ["a,b"], [], [], [], none, 0⟩

/-- A 58-entry view used to exercise restoration at target index 57. -/
def demoView : List Entry :=
  List.replicate 58 (mkEntry "demo.litematic" "dana" "1.20" "1x1x1" 0 "demo.litematic-0")

/-- Query pairs with a malformed anchor, an unrecognized sort value and an
unknown key. -/
def demoParams : Params :=
  [("idx", "abc"), ("sort", "banana"), ("zzz", "1")]

/-- Well-formedness of a single facet value for the URL round trip:
non-empty, stable under `trim`, and comma-free. -/
def goodToken (v : String) : Prop := v ≠ "" ∧ jsTrim v = v ∧ ',' ∉ v.data

instance goodTokenDecidable (v : String) : Decidable (goodToken v) :=
  inferInstanceAs (Decidable (v ≠ "" ∧ jsTrim v = v ∧ ',' ∉ v.data))

/-- A concrete round-trip-safe navigation state used as a witness. -/
def demoNavState : AppNavState :=
  ⟨"hopper sorter", .az, ["1.20", "1.21"], [], ["alice"], [], some "sorter.litematic-0", 57⟩

/-- A concrete raw catalog entry. -/
def demoRaw : RawLitematicEntry :=
  ⟨"demo.litematic", "dana", "1.20", "1x1x1", 0, 0, .inr 0, false⟩

/-! ## Windowing theorems (C4, C5) -/

/-- Euclidean division of negated casts computes the ceiling:
`⌈n / c⌉ = (n + c - 1) / c` on naturals. -/
theorem jsCeilDiv_natCast (n c : Nat) (hc : 1 ≤ c) :
    jsCeilDiv (n : Int) c = (((n + c - 1) / c : Nat) : Int) := by
  obtain ⟨c', rfl⟩ : ∃ c', c = c' + 1 := ⟨c - 1, by omega⟩
  have hsimp : n + (c' + 1) - 1 = n + c' := by omega
  rw [hsimp]
  have hdm := Nat.div_add_mod (n + c') (c' + 1)
  have hmlt : (n + c') % (c' + 1) < c' + 1 := Nat.mod_lt _ (by omega)
  have hb : (0 : Int) < ((c' + 1 : Nat) : Int) := by exact_mod_cast Nat.succ_pos c'
  have key :=
    (Int.ediv_emod_unique (a := -(n : Int)) (b := ((c' + 1 : Nat) : Int))
        (r := ((c' + 1 : Nat) : Int) * ((n + c') / (c' + 1) : Nat) - n)
        (q := -(((n + c') / (c' + 1) : Nat) : Int)) hb).mpr ?_
  · unfold jsCeilDiv
    rw [key.1, neg_neg]
  · refine ⟨by push_cast; ring, ?_, ?_⟩
    · have hdmZ : ((c' + 1 : Nat) : Int) * ((n + c') / (c' + 1) : Nat)
          + ((n + c') % (c' + 1) : Nat) = (n : Int) + c' := by exact_mod_cast hdm
      have hmltZ : (((n + c') % (c' + 1) : Nat) : Int) < (c' : Int) + 1 := by
        exact_mod_cast hmlt
      push_cast at hdmZ hmltZ ⊢
      linarith
    · have hdmZ : ((c' + 1 : Nat) : Int) * ((n + c') / (c' + 1) : Nat)
          + ((n + c') % (c' + 1) : Nat) = (n : Int) + c' := by exact_mod_cast hdm
      have hmodnn : (0 : Int) ≤ (((n + c') % (c' + 1) : Nat) : Int) := by positivity
      push_cast at hdmZ hmodnn ⊢
      linarith

/-- C4: after the recompute that clamps `windowStart` against the new view
length, the windowing invariant holds: `0 ≤ windowStart ≤ windowEnd ≤
viewLength` and `windowEnd - windowStart ≤ WINDOW_SIZE` (for any window
size, in particular the fixed `WINDOW_SIZE`), and the clamped `windowStart`
lands in `[0, viewLength]` even when the view shrank below the previous
`windowStart`. -/
theorem windowing_invariant_after_clamp (size prev len : Nat) :
    clampWindowStart prev len ≤ windowEndW size len (clampWindowStart prev len)
    ∧ windowEndW size len (clampWindowStart prev len) ≤ len
    ∧ windowEndW size len (clampWindowStart prev len)
        - clampWindowStart prev len ≤ size
    ∧ clampWindowStart prev len ≤ len := by
  unfold clampWindowStart windowEndW
  omega

/-- C5: for columns ≥ 1 the windowing engine computes
`windowEnd = min(viewLength, windowStart + 200)`,
`topRows = ⌊windowStart / columns⌋`,
`bottomRows = ⌈(viewLength - windowEnd) / columns⌉` and the two pixel
spacers as the row counts times `approxRowHeight`, with `WINDOW_SIZE = 200`. -/
theorem windowing_formulas (len ws cols rowH : Nat) (hc : 1 ≤ cols) :
    windowEndOf len ws = min len (ws + 200)
    ∧ topRowsOf ws cols = ((ws / cols : Nat) : Int)
    ∧ bottomRowsOf len (windowEndOf len ws) cols
        = (((len - windowEndOf len ws) + cols - 1) / cols : Nat)
    ∧ topSpacerOf ws cols rowH = topRowsOf ws cols * rowH
    ∧ bottomSpacerOf len (windowEndOf len ws) cols rowH
        = bottomRowsOf len (windowEndOf len ws) cols * rowH
    ∧ WINDOW_SIZE = 200 := by
  have hwe : windowEndOf len ws ≤ len := by
    unfold windowEndOf windowEndW; omega
  have htop : topRowsOf ws cols = ((ws / cols : Nat) : Int) := by
    unfold topRowsOf jsFloorDiv
    exact (Int.ofNat_ediv ws cols).symm
  have hbot : bottomRowsOf len (windowEndOf len ws) cols
      = (((len - windowEndOf len ws) + cols - 1) / cols : Nat) := by
    unfold bottomRowsOf
    have hcast : ((len : Int) - (windowEndOf len ws : Int))
        = ((len - windowEndOf len ws : Nat) : Int) := by
      omega
    rw [hcast, jsCeilDiv_natCast _ _ hc]
  refine ⟨rfl, htop, hbot, ?_, ?_, rfl⟩
  · unfold topSpacerOf
    rw [htop]
    have : (0 : Int) ≤ ((ws / cols : Nat) : Int) * rowH := by positivity
    omega
  · unfold bottomSpacerOf
    rw [hbot]
    have : (0 : Int) ≤ (((len - windowEndOf len ws) + cols - 1) / cols : Nat) * (rowH : Int) := by
      positivity
    omega

/-- Witness for C5 at `len = 405`, `ws = 210`, `cols = 3`, `rowH = 376`. -/
theorem windowing_formulas_witness :
    (1 : Nat) ≤ 3
    ∧ (windowEndOf 405 210 = min 405 (210 + 200)
        ∧ topRowsOf 210 3 = ((210 / 3 : Nat) : Int)
        ∧ bottomRowsOf 405 (windowEndOf 405 210) 3
            = (((405 - windowEndOf 405 210) + 3 - 1) / 3 : Nat)
        ∧ topSpacerOf 210 3 376 = topRowsOf 210 3 * 376
        ∧ bottomSpacerOf 405 (windowEndOf 405 210) 3 376
            = bottomRowsOf 405 (windowEndOf 405 210) 3 * 376
        ∧ WINDOW_SIZE = 200) :=
  ⟨by decide, windowing_formulas 405 210 3 376 (by decide)⟩

/-! ## Filter pipeline theorems (C1, C3) -/

/-- Skipping the search when there are no terms is the same as testing all
terms. -/
theorem isEmpty_or_all (terms : List String) (p : String → Bool) :
    (terms.isEmpty || terms.all p) = terms.all p := by
  cases terms <;> simp

/-- The source's early-return predicate agrees pointwise with the
specification's matching order. -/
theorem entryPasses_eq_specPasses (fs : FilterState) (q : String) (e : Entry) :
    entryPasses fs (searchTermsOf q) e = specPasses fs q e := by
  cases hv : (!fs.versionExcludes.isEmpty && fs.versionExcludes.contains e.version) <;>
    cases ha : (!fs.authorExcludes.isEmpty && fs.authorExcludes.contains e.author) <;>
      cases hvi : (!fs.versionIncludes.isEmpty && !fs.versionIncludes.contains e.version) <;>
        cases hai : (!fs.authorIncludes.isEmpty && !fs.authorIncludes.contains e.author) <;>
          simp [entryPasses, specPasses, matchesSearch, hv, ha, hvi, hai,
            isEmpty_or_all, Bool.and_assoc]

/-- C1: the filtered view contains exactly the catalog entries surviving all
active predicates in the specification's matching order, and Scenario B
holds: with `versionIncludes = ["1.20"]` only the 1.20 entry passes, and
adding `versionExcludes = ["1.20"]` empties the view. -/
theorem filtered_membership_spec :
    (∀ (catalog : List Entry) (fs : FilterState) (q : String) (k : SortKey)
        (e : Entry),
      e ∈ computeView catalog fs q k ↔ e ∈ catalog ∧ specPasses fs q e = true)
    ∧ computeView [entry120, entry121] fsIncl120 "" .newest = [entry120]
    ∧ computeView [entry120, entry121] fsInclExcl120 "" .newest = [] := by
  refine ⟨?_, by decide, by decide⟩
  intro catalog fs q k e
  unfold computeView
  simp [List.mem_filter, entryPasses_eq_specPasses]

/-- C3 counterexample: with only `versionExcludes = ["1.20"]` active, the
code's version preview list drops the 1.20 entry (it applies the version
facet's own exclude set), while the preview set described by the claim
keeps it. -/
theorem facet_preview_counterexample :
    versionPreviewList [entry120] fsExcl120 ""
      ≠ specVersionPreviewList [entry120] fsExcl120 "" := by
  decide

/-- C3 amended: each facet's preview list applies the other facet's include
and exclude sets, the facet's OWN exclude set, and the search text, and
ignores only the facet's own include set. -/
theorem facet_preview_membership :
    ∀ (catalog : List Entry) (fs : FilterState) (q : String) (e : Entry),
      (e ∈ versionPreviewList catalog fs q ↔
        e ∈ catalog
        ∧ (!fs.versionExcludes.isEmpty && fs.versionExcludes.contains e.version) = false
        ∧ (!fs.authorExcludes.isEmpty && fs.authorExcludes.contains e.author) = false
        ∧ (!fs.authorIncludes.isEmpty && !fs.authorIncludes.contains e.author) = false
        ∧ matchesSearch e (searchTermsOf q) = true)
      ∧ (e ∈ authorPreviewList catalog fs q ↔
        e ∈ catalog
        ∧ (!fs.versionExcludes.isEmpty && fs.versionExcludes.contains e.version) = false
        ∧ (!fs.authorExcludes.isEmpty && fs.authorExcludes.contains e.author) = false
        ∧ (!fs.versionIncludes.isEmpty && !fs.versionIncludes.contains e.version) = false
        ∧ matchesSearch e (searchTermsOf q) = true) := by
  intro catalog fs q e
  constructor
  · unfold versionPreviewList
    rw [List.mem_filter]
    refine and_congr_right fun _ => ?_
    cases h1 : (!fs.versionExcludes.isEmpty && fs.versionExcludes.contains e.version) <;>
      cases h2 : (!fs.authorExcludes.isEmpty && fs.authorExcludes.contains e.author) <;>
        cases h3 : (!fs.authorIncludes.isEmpty && !fs.authorIncludes.contains e.author) <;>
          simp [h1, h2, h3]
  · unfold authorPreviewList
    rw [List.mem_filter]
    refine and_congr_right fun _ => ?_
    cases h1 : (!fs.versionExcludes.isEmpty && fs.versionExcludes.contains e.version) <;>
      cases h2 : (!fs.authorExcludes.isEmpty && fs.authorExcludes.contains e.author) <;>
        cases h3 : (!fs.versionIncludes.isEmpty && !fs.versionIncludes.contains e.version) <;>
          simp [h1, h2, h3]

/-! ## Sort comparator theorems (C6) -/

/-- The `oldest` comparator keeps `a` before `b` iff `createdAt` is
non-decreasing. -/
theorem sortLE_oldest_iff (a b : Entry) :
    sortLE .oldest a b ↔ a.createdAt ≤ b.createdAt := by
  simp only [sortLE, sortCmp]
  omega

/-- The `newest` comparator keeps `a` before `b` iff `createdAt` is
non-increasing. -/
theorem sortLE_newest_iff (a b : Entry) :
    sortLE .newest a b ↔ b.createdAt ≤ a.createdAt := by
  simp only [sortLE, sortCmp]
  omega

/-- The `az` comparator keeps `a` before `b` iff the case-folded file name
is non-decreasing. -/
theorem sortLE_az_iff (a b : Entry) :
    sortLE .az a b ↔ jsToLower a.file ≤ jsToLower b.file := by
  simp only [sortLE, sortCmp, strCmpBase]
  split_ifs with h1 h2
  · exact iff_of_true (by omega) (le_of_lt h1)
  · exact iff_of_false (by omega) (not_le.mpr h2)
  · exact iff_of_true (by omega) (le_of_not_lt h2)

/-- Each sort relation is total. -/
theorem sortLE_isTotal (k : SortKey) : IsTotal Entry (sortLE k) := by
  constructor
  intro a b
  cases k
  · rw [sortLE_newest_iff, sortLE_newest_iff]; omega
  · rw [sortLE_oldest_iff, sortLE_oldest_iff]; omega
  · rw [sortLE_az_iff, sortLE_az_iff]; exact le_total _ _

/-- Each sort relation is transitive. -/
theorem sortLE_isTrans (k : SortKey) : IsTrans Entry (sortLE k) := by
  constructor
  intro a b c hab hbc
  cases k
  · rw [sortLE_newest_iff] at *; omega
  · rw [sortLE_oldest_iff] at *; omega
  · rw [sortLE_az_iff] at *; exact le_trans hab hbc

/-- C6: the view under `oldest` is sorted by ascending `createdAt`, under
`newest` by descending `createdAt`, under `az` by the case-folded file
name ascending; the sort permutes the filtered result (not the raw
catalog); and Scenario A holds for a catalog with entries at epochs 100
and 200. -/
theorem sort_comparators :
    (∀ (catalog : List Entry) (fs : FilterState) (q : String),
      List.Sorted (fun a b : Entry => a.createdAt ≤ b.createdAt)
        (computeView catalog fs q .oldest)
      ∧ List.Sorted (fun a b : Entry => b.createdAt ≤ a.createdAt)
        (computeView catalog fs q .newest)
      ∧ List.Sorted (fun a b : Entry => jsToLower a.file ≤ jsToLower b.file)
        (computeView catalog fs q .az)
      ∧ ∀ k, (computeView catalog fs q k).Perm
          (catalog.filter (entryPasses fs (searchTermsOf q))))
    ∧ computeView [entry121, entry120] FilterState.empty "" .oldest
        = [entry120, entry121]
    ∧ computeView [entry121, entry120] FilterState.empty "" .newest
        = [entry121, entry120] := by
  refine ⟨?_, by decide, by decide⟩
  intro catalog fs q
  have hsorted : ∀ k, List.Sorted (sortLE k)
      (computeView catalog fs q k) := by
    intro k
    haveI := sortLE_isTotal k
    haveI := sortLE_isTrans k
    exact List.sorted_insertionSort (sortLE k) _
  refine ⟨?_, ?_, ?_, ?_⟩
  · exact (hsorted .oldest).imp fun h => (sortLE_oldest_iff _ _).mp h
  · exact (hsorted .newest).imp fun h => (sortLE_newest_iff _ _).mp h
  · exact (hsorted .az).imp fun h => (sortLE_az_iff _ _).mp h
  · intro k
    exact List.perm_insertionSort (sortLE k) _

/-! ## Restoration theorems (C7, C9) -/

/-- C7: with a pending target index inside the view, a zero target scrolls
straight to the top (no element-location phase); a non-zero target sets the
anchor to the target and the window start to
`max(0, target - BUFFER_ROWS * columns)` directly, entering the
element-location phase with the target entry's id. -/
theorem restore_step_spec (t : Nat) (view : List Entry) (cols : Nat)
    (h : t < view.length) :
    restoreStep (some (t : Int)) view cols =
      if t = 0 then RestoreAction.scrollTop
      else RestoreAction.locate t (t - BUFFER_ROWS * cols)
        ((view.get? t).map (·.id)) := by
  have hlen : ¬ view.length = 0 := by omega
  have hidx : (max 0 (min ((view.length : Int) - 1) (t : Int))).toNat = t := by
    omega
  simp only [restoreStep, hlen, if_false, hidx]

/-- Witness for C7 at target 57 in a 58-entry view with 3 columns:
`windowStart = 57 - 3*3 = 48`. -/
theorem restore_step_spec_witness :
    57 < demoView.length
    ∧ restoreStep (some ((57 : Nat) : Int)) demoView 3
        = RestoreAction.locate 57 48 (some "demo.litematic-0") := by
  refine ⟨by decide, ?_⟩
  rw [restore_step_spec 57 demoView 3 (by decide)]
  decide

/-- Unfolded behaviour of the retry loop: it gives up exactly when the
element is found on none of the `rem` frames it may examine, and a success
happens within the budget on a frame where the element was found. -/
theorem tryScrollRun_spec (found : Nat → Bool) :
    ∀ (rem f0 : Nat),
      (tryScrollRun found f0 rem = .gaveUp ↔
        ∀ i, i < rem → found (f0 + i) = false)
      ∧ (∀ f, tryScrollRun found f0 rem = .scrolled f →
          f < f0 + rem ∧ found f = true) := by
  intro rem
  induction rem with
  | zero =>
    intro f0
    refine ⟨?_, ?_⟩
    · simp [tryScrollRun]
    · intro f hf
      simp [tryScrollRun] at hf
  | succ n ih =>
    intro f0
    refine ⟨⟨?_, ?_⟩, ?_⟩
    · intro h i hi
      by_cases hf : found f0 = true
      · rw [tryScrollRun, if_pos hf] at h
        exact absurd h (by simp)
      · rw [tryScrollRun, if_neg hf] at h
        rcases Nat.eq_zero_or_pos i with rfl | hip
        · simpa using hf
        · have hrec := ((ih (f0 + 1)).1.mp h) (i - 1) (by omega)
          have harr : f0 + 1 + (i - 1) = f0 + i := by omega
          rwa [harr] at hrec
    · intro hall
      have hf : found f0 = false := by simpa using hall 0 (by omega)
      rw [tryScrollRun, if_neg (by simp [hf])]
      apply (ih (f0 + 1)).1.mpr
      intro i hi
      have hrec := hall (i + 1) (by omega)
      rwa [show f0 + (i + 1) = f0 + 1 + i by omega] at hrec
    · intro f hscr
      by_cases hf : found f0 = true
      · rw [tryScrollRun, if_pos hf] at hscr
        injection hscr with hfe
        subst hfe
        exact ⟨by omega, hf⟩
      · rw [tryScrollRun, if_neg hf] at hscr
        have hrec := (ih (f0 + 1)).2 f hscr
        exact ⟨by omega, hrec.2⟩

/-- C9: the element-location retry loop is bounded by the 10-attempt cap:
for every sequence of per-frame lookup outcomes it either scrolls on a
frame within the budget on which the element was found, or gives up exactly
when the element appeared on none of the 10 frames; in every outcome the
suppression flag ends cleared. -/
theorem retry_loop_bounded (found : Nat → Bool) :
    (tryScrollRun found 0 RETRY_CAP = .gaveUp ↔
      ∀ f, f < RETRY_CAP → found f = false)
    ∧ (∀ f, tryScrollRun found 0 RETRY_CAP = .scrolled f →
        f < RETRY_CAP ∧ found f = true)
    ∧ restoringAfter (tryScrollRun found 0 RETRY_CAP) = false := by
  obtain ⟨h1, h2⟩ := tryScrollRun_spec found RETRY_CAP 0
  refine ⟨by simpa using h1, by simpa using h2, ?_⟩
  cases tryScrollRun found 0 RETRY_CAP <;> rfl

/-- Witness for C9: when the element never appears the loop gives up
(without throwing) after its 10 attempts. -/
theorem retry_loop_bounded_witness :
    tryScrollRun (fun _ => false) 0 RETRY_CAP = ScrollOutcome.gaveUp :=
  (retry_loop_bounded (fun _ => false)).1.mpr (fun _ _ => rfl)

/-! ## Decimal printing and parsing lemmas -/

/-- Strings are their character lists. -/
theorem data_mk (cs : List Char) : (String.mk cs).data = cs := rfl

/-- A string equals `""` exactly when its character list is empty. -/
theorem str_eq_empty_iff (v : String) : v = "" ↔ v.data = [] := by
  constructor
  · intro h
    rw [h]
  · intro h
    cases v
    simp only [data_mk] at h
    rw [h]

/-- The fuel-driven printer agrees with `Nat.digits` when given enough
fuel. -/
theorem natCharsAux_eq : ∀ (n fuel : Nat), n ≤ fuel →
    natCharsAux fuel n = ((Nat.digits 10 n).map digitChar).reverse := by
  intro n
  induction n using Nat.strong_induction_on with
  | _ n ih =>
    intro fuel hle
    rcases n with _ | m
    · simp [natCharsAux]
    · rcases fuel with _ | f
      · omega
      · have hdiv : (m + 1) / 10 < m + 1 := Nat.div_lt_self (by omega) (by omega)
        have hrec := ih ((m + 1) / 10) hdiv f (by omega)
        rw [natCharsAux, hrec,
          Nat.digits_def' (by norm_num : (1 : Nat) < 10) (Nat.succ_pos m)]
        simp

/-- Digit characters of a positive number. -/
theorem natChars_eq_digits (n : Nat) (h : n ≠ 0) :
    natChars n = ((Nat.digits 10 n).map digitChar).reverse := by
  unfold natChars
  rw [if_neg h]
  exact natCharsAux_eq n n le_rfl

/-- Facts about a digit character below the base. -/
theorem digitChar_facts (d : Nat) (hd : d < 10) :
    digitVal (digitChar d) = d ∧ (digitChar d).isDigit = true
    ∧ isJsSpace (digitChar d) = false
    ∧ digitChar d ≠ '-' ∧ digitChar d ≠ '+' := by
  interval_cases d <;> exact ⟨rfl, rfl, rfl, by decide, by decide⟩

/-- Every character printed by `natChars` is a digit character. -/
theorem natChars_mem (n : Nat) : ∀ c ∈ natChars n, ∃ d, d < 10 ∧ c = digitChar d := by
  intro c hc
  by_cases h : n = 0
  · subst h
    simp [natChars] at hc
    exact ⟨0, by omega, by rw [hc]; decide⟩
  · rw [natChars_eq_digits n h, List.mem_reverse, List.mem_map] at hc
    obtain ⟨d, hdmem, rfl⟩ := hc
    exact ⟨d, Nat.digits_lt_base (by norm_num) hdmem, rfl⟩

/-- The printed digit list is never empty. -/
theorem natChars_ne_nil (n : Nat) : natChars n ≠ [] := by
  by_cases h : n = 0
  · subst h
    simp [natChars]
  · rw [natChars_eq_digits n h]
    simp [Nat.digits_ne_nil_iff_ne_zero, h]

/-- Reading back the printed digits recovers the number. -/
theorem digitsValue_natChars (n : Nat) : digitsValue (natChars n) = n := by
  by_cases h : n = 0
  · subst h
    decide
  · rw [natChars_eq_digits n h]
    unfold digitsValue
    rw [List.map_reverse, List.reverse_reverse, List.map_map]
    have hmap : (Nat.digits 10 n).map (digitVal ∘ digitChar) = Nat.digits 10 n := by
      have h1 : (Nat.digits 10 n).map (digitVal ∘ digitChar)
          = (Nat.digits 10 n).map id :=
        List.map_congr_left fun d hd =>
          (digitChar_facts d (Nat.digits_lt_base (by norm_num) hd)).1
      rw [h1, List.map_id]
    rw [hmap, Nat.ofDigits_digits]

/-- Decimal printing is injective. -/
theorem natToString_inj (a b : Nat) (h : natToString a = natToString b) : a = b := by
  have hdata : natChars a = natChars b := congrArg String.data h
  have := congrArg digitsValue hdata
  rwa [digitsValue_natChars, digitsValue_natChars] at this

/-- Generic helper: `takeWhile` keeps a list all of whose elements satisfy
the predicate. -/
theorem takeWhile_all {α : Type} (p : α → Bool) :
    ∀ l : List α, (∀ c ∈ l, p c = true) → l.takeWhile p = l := by
  intro l
  induction l with
  | nil => intro _; rfl
  | cons c cs ih =>
    intro h
    rw [List.takeWhile_cons, if_pos (h c (List.mem_cons_self c cs)),
      ih fun x hx => h x (List.mem_cons_of_mem c hx)]

/-- Parsing the printed decimal string recovers the number
(`Number.parseInt(String(n), 10) = n`). -/
theorem jsParseInt_natToString (n : Nat) :
    jsParseInt (natToString n) = some (n : Int) := by
  obtain ⟨c, rest, hcr⟩ := List.exists_cons_of_ne_nil (natChars_ne_nil n)
  have hcmem : c ∈ natChars n := by
    rw [hcr]
    exact List.mem_cons_self c rest
  obtain ⟨d, hd, rfl⟩ := natChars_mem n c hcmem
  obtain ⟨hval, hdig, hsp, hminus, hplus⟩ := digitChar_facts d hd
  have hall : ∀ x ∈ digitChar d :: rest, Char.isDigit x = true := by
    intro x hx
    rw [← hcr] at hx
    obtain ⟨d', hd', rfl⟩ := natChars_mem n x hx
    exact (digitChar_facts d' hd').2.1
  have hdrop : (natChars n).dropWhile isJsSpace = digitChar d :: rest := by
    rw [hcr, List.dropWhile_cons, if_neg (by simp [hsp])]
  have hpv : digitPrefixVal (digitChar d :: rest) = some n := by
    unfold digitPrefixVal
    rw [takeWhile_all _ _ hall, if_neg (by simp), ← hcr, digitsValue_natChars]
  simp only [jsParseInt, natToString, jsParseIntChars, data_mk, hdrop]
  rw [if_neg hminus, if_neg hplus, hpv]
  rfl

/-! ## Splitting and joining lemmas for the facet-list codec -/

/-- Character list of the separator string. -/
theorem comma_data : ("," : String).data = [','] := rfl

/-- A split never produces an empty list of tokens. -/
theorem splitOn1_ne_nil (p : Char → Bool) : ∀ cs, splitOn1 p cs ≠ [] := by
  intro cs
  induction cs with
  | nil => simp [splitOn1]
  | cons c cs ih =>
    rcases h : splitOn1 p cs with _ | ⟨hd, tl⟩
    · exact absurd h ih
    · simp only [splitOn1, h]
      split <;> simp

/-- A separator-free list is one token. -/
theorem splitOn1_no_sep (p : Char → Bool) :
    ∀ xs, (∀ c ∈ xs, p c = false) → splitOn1 p xs = [xs] := by
  intro xs
  induction xs with
  | nil => intro _; rfl
  | cons c cs ih =>
    intro h
    have hrec := ih fun x hx => h x (List.mem_cons_of_mem c hx)
    simp only [splitOn1, hrec]
    rw [if_neg (by simp [h c (List.mem_cons_self c cs)])]

/-- Splitting a list that starts with a separator-free token followed by a
separator yields that token and the split of the remainder. -/
theorem splitOn1_append_sep (p : Char → Bool) (sep : Char) (hsep : p sep = true) :
    ∀ xs ys, (∀ c ∈ xs, p c = false) →
      splitOn1 p (xs ++ sep :: ys) = xs :: splitOn1 p ys := by
  intro xs
  induction xs with
  | nil =>
    intro ys _
    obtain ⟨hd, tl, h⟩ := List.exists_cons_of_ne_nil (splitOn1_ne_nil p ys)
    simp only [List.nil_append, splitOn1, h]
    rw [if_pos hsep]
  | cons c cs ih =>
    intro ys h
    have hrec := ih ys fun x hx => h x (List.mem_cons_of_mem c hx)
    simp only [List.cons_append, splitOn1, List.append_eq, hrec]
    rw [if_neg (by simp [h c (List.mem_cons_self c cs)])]

/-- A joined list of non-empty values is non-empty. -/
theorem joinComma_ne_empty :
    ∀ vs : List String, vs ≠ [] → (∀ v ∈ vs, v ≠ "") → joinComma vs ≠ "" := by
  intro vs
  match vs with
  | [] => intro h _; exact absurd rfl h
  | [v] =>
    intro _ h
    simpa [joinComma] using h v (by simp)
  | v :: w :: rest =>
    intro _ h
    have hv : v ≠ "" := h v (by simp)
    simp only [joinComma]
    intro hcon
    apply hv
    rw [str_eq_empty_iff] at hcon ⊢
    rw [String.data_append, String.data_append, comma_data] at hcon
    simp at hcon

/-- The split-trim-filter decode inverts the comma join on well-formed
tokens. -/
theorem parse_join :
    ∀ vs : List String, vs ≠ [] → (∀ v ∈ vs, goodToken v) →
      parseListParam (some (joinComma vs)) = vs := by
  intro vs
  induction vs with
  | nil => intro h _; exact absurd rfl h
  | cons v vs ih =>
    intro _ hgood
    obtain ⟨hv_ne, hv_trim, hv_comma⟩ := hgood v (List.mem_cons_self v vs)
    have hv_free : ∀ c ∈ v.data, isComma c = false := by
      intro c hc
      simp only [isComma, decide_eq_false_iff_not]
      intro hcc
      exact hv_comma (hcc ▸ hc)
    have hmkv : String.mk v.data = v := by cases v; rfl
    rcases vs with _ | ⟨w, rest⟩
    · have hjoin : joinComma [v] = v := rfl
      rw [hjoin]
      simp only [parseListParam]
      rw [if_neg hv_ne, splitOn1_no_sep isComma v.data hv_free]
      simp only [List.map_cons, List.map_nil, hmkv, hv_trim]
      simp [List.filter, hv_ne]
    · have hgood2 : ∀ x ∈ w :: rest, goodToken x := fun x hx =>
        hgood x (List.mem_cons_of_mem v hx)
      have hne2 : (w :: rest : List String) ≠ [] := by simp
      have hrec := ih hne2 hgood2
      have hjoin_ne : joinComma (w :: rest) ≠ "" :=
        joinComma_ne_empty (w :: rest) hne2 fun x hx => (hgood2 x hx).1
      have hjoin_ne' : joinComma (v :: w :: rest) ≠ "" :=
        joinComma_ne_empty (v :: w :: rest) (by simp) fun x hx => (hgood x hx).1
      have hdata : (joinComma (v :: w :: rest)).data
          = v.data ++ ',' :: (joinComma (w :: rest)).data := by
        show (v ++ "," ++ joinComma (w :: rest)).data = _
        rw [String.data_append, String.data_append, comma_data]
        simp
      have hrest : ((splitOn1 isComma (joinComma (w :: rest)).data).map
            (fun cs => jsTrim (String.mk cs))).filter (fun t => t ≠ "")
          = w :: rest := by
        have h1 := hrec
        simp only [parseListParam] at h1
        rwa [if_neg hjoin_ne] at h1
      simp only [parseListParam]
      rw [if_neg hjoin_ne', hdata,
        splitOn1_append_sep isComma ',' (by decide) v.data _ hv_free]
      simp only [List.map_cons, hmkv, hv_trim]
      rw [List.filter_cons_of_pos (by simp [hv_ne]), hrest]

/-! ## Query-string lookup lemmas -/

/-- Lookup distributes over concatenation of parameter lists. -/
theorem getParam_append (xs ys : Params) (k : String) :
    getParam (xs ++ ys) k = (getParam xs k).or (getParam ys k) := by
  unfold getParam
  rw [List.find?_append]
  cases List.find? (fun kv => kv.1 == k) xs <;> simp [Option.or]

/-- Lookup in a one-pair list. -/
theorem getParam_single (key val k : String) :
    getParam [(key, val)] k = if key == k then some val else none := by
  unfold getParam
  cases h : (key == k) <;> simp [List.find?, h]

/-- A `listSeg` contributes its value at its own key and nothing at any
other key. -/
theorem getParam_listSeg (key : String) (o : Option String) (k : String) :
    getParam (listSeg key o) k = if key == k then o else none := by
  cases o
  · simp [listSeg, getParam]
  · simp [listSeg, getParam_single]

/-- A guarded one-pair segment: value at its key when the guard holds. -/
theorem getParam_iteSeg (b : Prop) [Decidable b] (key val k : String) :
    getParam (if b then [(key, val)] else []) k
      = if b then (if key == k then some val else none) else none := by
  split
  · exact getParam_single key val k
  · rfl

/-- Lookup in the empty parameter list. -/
theorem getParam_nil (k : String) : getParam [] k = none := rfl

/-- Mirror image of `getParam_iteSeg` (for a negated guard). -/
theorem getParam_iteSegNeg (b : Prop) [Decidable b] (key val k : String) :
    getParam (if b then [] else [(key, val)]) k
      = if b then none else (if key == k then some val else none) := by
  split
  · rfl
  · exact getParam_single key val k

/-- The preview segment: the id at key `preview` when present and truthy. -/
theorem getParam_previewSeg (o : Option String) (k : String) :
    getParam (previewSeg o) k
      = if ("preview" : String) == k then
          (match o with
           | some pid => if pid ≠ "" then some pid else none
           | none => none)
        else none := by
  cases o with
  | none => simp [previewSeg, getParam]
  | some pid =>
    by_cases hpid : pid = "" <;>
      simp [previewSeg, hpid, getParam_single, getParam]

/-- Encoded value at key `q`. -/
theorem getParam_buildParams_q (st : AppNavState) :
    getParam (buildParams st) "q" = if jsTrim st.q = "" then none else some st.q := by
  unfold buildParams
  simp [getParam_append, getParam_listSeg, getParam_iteSeg, getParam_iteSegNeg,
    getParam_previewSeg, getParam_single, getParam_nil,
    Option.or_none, Option.none_or]

/-- Encoded value at key `sort`. -/
theorem getParam_buildParams_sort (st : AppNavState) :
    getParam (buildParams st) "sort"
      = if st.sortKey = .newest then none else some (sortKeyStr st.sortKey) := by
  unfold buildParams
  simp [getParam_append, getParam_listSeg, getParam_iteSeg, getParam_iteSegNeg,
    getParam_previewSeg, getParam_single, getParam_nil,
    Option.or_none, Option.none_or]

/-- Encoded value at key `vInc`. -/
theorem getParam_buildParams_vInc (st : AppNavState) :
    getParam (buildParams st) "vInc" = listToParam st.versionIncludes := by
  unfold buildParams
  simp [getParam_append, getParam_listSeg, getParam_iteSeg, getParam_iteSegNeg,
    getParam_previewSeg, getParam_single, getParam_nil,
    Option.or_none, Option.none_or]

/-- Encoded value at key `vExc`. -/
theorem getParam_buildParams_vExc (st : AppNavState) :
    getParam (buildParams st) "vExc" = listToParam st.versionExcludes := by
  unfold buildParams
  simp [getParam_append, getParam_listSeg, getParam_iteSeg, getParam_iteSegNeg,
    getParam_previewSeg, getParam_single, getParam_nil,
    Option.or_none, Option.none_or]

/-- Encoded value at key `aInc`. -/
theorem getParam_buildParams_aInc (st : AppNavState) :
    getParam (buildParams st) "aInc" = listToParam st.authorIncludes := by
  unfold buildParams
  simp [getParam_append, getParam_listSeg, getParam_iteSeg, getParam_iteSegNeg,
    getParam_previewSeg, getParam_single, getParam_nil,
    Option.or_none, Option.none_or]

/-- Encoded value at key `aExc`. -/
theorem getParam_buildParams_aExc (st : AppNavState) :
    getParam (buildParams st) "aExc" = listToParam st.authorExcludes := by
  unfold buildParams
  simp [getParam_append, getParam_listSeg, getParam_iteSeg, getParam_iteSegNeg,
    getParam_previewSeg, getParam_single, getParam_nil,
    Option.or_none, Option.none_or]

/-- Encoded value at key `preview`. -/
theorem getParam_buildParams_preview (st : AppNavState) :
    getParam (buildParams st) "preview"
      = match st.previewId with
        | some pid => if pid ≠ "" then some pid else none
        | none => none := by
  unfold buildParams
  simp [getParam_append, getParam_listSeg, getParam_iteSeg, getParam_iteSegNeg,
    getParam_previewSeg, getParam_single, getParam_nil,
    Option.or_none, Option.none_or]

/-- Encoded value at key `idx`: always present. -/
theorem getParam_buildParams_idx (st : AppNavState) :
    getParam (buildParams st) "idx" = some (natToString st.anchorIndex) := by
  unfold buildParams
  simp [getParam_append, getParam_listSeg, getParam_iteSeg, getParam_iteSegNeg,
    getParam_previewSeg, getParam_single, getParam_nil,
    Option.or_none, Option.none_or]

/-! ## Round-trip theorems (C2) -/

/-- Decoding inverts encoding of a facet list whose values are
well-formed. -/
theorem parseListParam_listToParam (vs : List String)
    (h : ∀ v ∈ vs, goodToken v) :
    parseListParam (listToParam vs) = vs := by
  rcases vs with _ | ⟨a, L⟩
  · rfl
  · rw [listToParam, if_neg (by simp)]
    exact parse_join (a :: L) (by simp) h

/-- C2 (amended): decoding the encoding of an in-memory state restores the
state, provided the facet values are non-empty, trim-stable and comma-free,
the search text is empty or not whitespace-only, and an open preview has a
non-empty id.  Omitted default keys decode back to the defaults. -/
theorem decode_encode (st : AppNavState)
    (hq : st.q = "" ∨ jsTrim st.q ≠ "")
    (hvi : ∀ v ∈ st.versionIncludes, goodToken v)
    (hve : ∀ v ∈ st.versionExcludes, goodToken v)
    (hai : ∀ v ∈ st.authorIncludes, goodToken v)
    (hae : ∀ v ∈ st.authorExcludes, goodToken v)
    (hp : st.previewId ≠ some "") :
    decodeParams (buildParams st) =
      { q := st.q
        sortKey := st.sortKey
        versionIncludes := st.versionIncludes
        versionExcludes := st.versionExcludes
        authorIncludes := st.authorIncludes
        authorExcludes := st.authorExcludes
        pendingPreviewId := st.previewId
        pendingIndex := some ((st.anchorIndex : Nat) : Int) } := by
  unfold decodeParams applyParams
  simp only [NavDecoded.mk.injEq]
  refine ⟨?_, ?_, ?_, ?_, ?_, ?_, ?_, ?_⟩
  · rw [getParam_buildParams_q]
    rcases hq with hq | hq
    · rw [hq]
      rfl
    · rw [if_neg fun hcon => hq hcon]
      rfl
  · rw [getParam_buildParams_sort]
    cases st.sortKey <;> simp [parseSort, sortKeyStr]
  · rw [getParam_buildParams_vInc]
    exact parseListParam_listToParam _ hvi
  · rw [getParam_buildParams_vExc]
    exact parseListParam_listToParam _ hve
  · rw [getParam_buildParams_aInc]
    exact parseListParam_listToParam _ hai
  · rw [getParam_buildParams_aExc]
    exact parseListParam_listToParam _ hae
  · rw [getParam_buildParams_preview]
    rcases hpv : st.previewId with _ | pid
    · rfl
    · have hpne : pid ≠ "" := by
        intro hcon
        exact hp (by rw [hpv, hcon])
      simp [hpne]
  · rw [getParam_buildParams_idx]
    have hne : natToString st.anchorIndex ≠ "" := by
      intro hcon
      exact natChars_ne_nil st.anchorIndex (congrArg String.data hcon)
    simp [hne, jsParseInt_natToString]

/-- C2 counterexample: a facet value containing a comma does not survive
the round trip — encoding joins on commas and decoding splits on them. -/
theorem decode_encode_counterexample :
    (decodeParams (buildParams commaNavState)).versionIncludes
      ≠ commaNavState.versionIncludes := by
  decide

/-- Witness for C2 at a concrete well-formed state. -/
theorem decode_encode_witness :
    decodeParams (buildParams demoNavState) =
      { q := "hopper sorter"
        sortKey := .az
        versionIncludes := ["1.20", "1.21"]
        versionExcludes := []
        authorIncludes := ["alice"]
        authorExcludes := []
        pendingPreviewId := some "sorter.litematic-0"
        pendingIndex := some 57 } := by
  rw [decode_encode demoNavState (Or.inr (by decide)) (by decide) (by decide)
    (by decide) (by decide) (by decide)]
  rfl

/-! ## Decode tolerance (C8) -/

/-- Filtering with a predicate implied by the search predicate does not
change the first match. -/
theorem find?_filter_of_imp {α : Type} (p q : α → Bool) (l : List α)
    (h : ∀ a, q a = true → p a = true) :
    List.find? q (l.filter p) = List.find? q l := by
  induction l with
  | nil => rfl
  | cons a l ih =>
    by_cases hq : q a = true
    · rw [List.filter_cons_of_pos (h a hq)]
      simp [List.find?_cons, hq, ih]
    · have hqf : q a = false := by simpa using hq
      by_cases hp : p a = true
      · rw [List.filter_cons_of_pos hp]
        simp [List.find?_cons, hqf, ih]
      · rw [List.filter_cons_of_neg (by simpa using hp)]
        simp [List.find?_cons, hqf, ih]

/-- Dropping pairs with unrecognized keys does not change the lookup of a
recognized key. -/
theorem getParam_filter_known (sp : Params) (k : String)
    (hk : knownNavKeys.contains k = true) :
    getParam (sp.filter (fun kv => knownNavKeys.contains kv.1)) k
      = getParam sp k := by
  unfold getParam
  rw [find?_filter_of_imp]
  intro kv hkv
  have hkv' : kv.1 = k := by simpa using hkv
  rw [hkv']
  exact hk

/-- C8: decoding is total and permissive — unknown keys are ignored (the
decode of any parameter list equals the decode of its restriction to the
recognized keys), a present but unparseable anchor value decodes to a
pending index of 0, an unrecognized or absent sort value leaves the default
sort key, and list-valued facets are split on commas with tokens trimmed
and empty tokens dropped. -/
theorem decode_tolerance :
    (∀ (prev : SortKey) (sp : Params),
      applyParams prev sp
        = applyParams prev (sp.filter (fun kv => knownNavKeys.contains kv.1)))
    ∧ (∀ (prev : SortKey) (sp : Params) (s : String),
        getParam sp "idx" = some s → s ≠ "" → jsParseInt s = none →
        (applyParams prev sp).pendingIndex = some 0)
    ∧ (∀ (sp : Params) (s : String),
        getParam sp "sort" = some s →
        s ≠ "newest" → s ≠ "oldest" → s ≠ "az" →
        (decodeParams sp).sortKey = .newest)
    ∧ (∀ sp : Params, getParam sp "sort" = none →
        (decodeParams sp).sortKey = .newest)
    ∧ parseListParam (some " a ,, b ,") = ["a", "b"]
    ∧ parseListParam (some "") = []
    ∧ parseListParam none = [] := by
  refine ⟨?_, ?_, ?_, ?_, by decide, by decide, rfl⟩
  · intro prev sp
    have h1 := getParam_filter_known sp "q" (by decide)
    have h2 := getParam_filter_known sp "sort" (by decide)
    have h3 := getParam_filter_known sp "vInc" (by decide)
    have h4 := getParam_filter_known sp "vExc" (by decide)
    have h5 := getParam_filter_known sp "aInc" (by decide)
    have h6 := getParam_filter_known sp "aExc" (by decide)
    have h7 := getParam_filter_known sp "preview" (by decide)
    have h8 := getParam_filter_known sp "idx" (by decide)
    simp only [applyParams, NavDecoded.mk.injEq]
    rw [h1, h2, h3, h4, h5, h6, h7, h8]
    exact ⟨rfl, rfl, rfl, rfl, rfl, rfl, rfl, rfl⟩
  · intro prev sp s h1 h2 h3
    simp only [applyParams]
    rw [h1]
    simp [h2, h3]
  · intro sp s h1 h2 h3 h4
    simp only [decodeParams, applyParams]
    rw [h1]
    simp [parseSort, h2, h3, h4]
  · intro sp h1
    simp only [decodeParams, applyParams]
    rw [h1]
    rfl

/-- Witness for C8 at concrete parameters carrying a malformed anchor, an
unrecognized sort value and an unknown key. -/
theorem decode_tolerance_witness :
    (applyParams .newest demoParams).pendingIndex = some 0
    ∧ (decodeParams demoParams).sortKey = .newest :=
  ⟨decode_tolerance.2.1 .newest demoParams "abc" rfl (by decide) (by decide),
   decode_tolerance.2.2.1 demoParams "banana" rfl (by decide) (by decide)
     (by decide)⟩

/-! ## Entry identity theorems (C10) -/

/-- Every normalized entry comes from some raw entry at an index at or
beyond the starting index. -/
theorem mem_normalizeFrom :
    ∀ (l : List RawLitematicEntry) (k : Nat) (e : Entry),
      e ∈ normalizeFrom k l → ∃ j r, k ≤ j ∧ e = normalizeEntry j r := by
  intro l
  induction l with
  | nil =>
    intro k e h
    simp [normalizeFrom] at h
  | cons a l ih =>
    intro k e h
    rcases List.mem_cons.mp h with rfl | h
    · exact ⟨k, a, le_rfl, rfl⟩
    · obtain ⟨j, r, hj, he⟩ := ih (k + 1) e h
      exact ⟨j, r, by omega, he⟩

/-- Two lists that end in a dash followed by digit runs agree on the digit
runs (read backwards): the digit prefixes of the reversals agree. -/
theorem digits_dash_cancel :
    ∀ (xs ys u v : List Char),
      (∀ c ∈ xs, c.isDigit = true) → (∀ c ∈ ys, c.isDigit = true) →
      xs ++ '-' :: u = ys ++ '-' :: v → xs = ys := by
  intro xs
  induction xs with
  | nil =>
    intro ys u v _ hys h
    rcases ys with _ | ⟨y, ys⟩
    · rfl
    · simp only [List.nil_append, List.cons_append, List.cons.injEq] at h
      have hyd := hys y (by simp)
      rw [← h.1] at hyd
      exact absurd hyd (by decide)
  | cons x xs ih =>
    intro ys u v hxs hys h
    rcases ys with _ | ⟨y, ys⟩
    · simp only [List.nil_append, List.cons_append, List.cons.injEq] at h
      have hxd := hxs x (by simp)
      rw [h.1] at hxd
      exact absurd hxd (by decide)
    · simp only [List.cons_append, List.cons.injEq] at h
      obtain ⟨rfl, h2⟩ := h
      rw [ih ys u v (fun c hc => hxs c (by simp [hc]))
        (fun c hc => hys c (by simp [hc])) h2]

/-- The load-order index is recoverable from the identity string: equal ids
force equal indices, whatever the file names are. -/
theorem id_index_inj (s t : String) (i j : Nat)
    (h : s ++ "-" ++ natToString i = t ++ "-" ++ natToString j) : i = j := by
  have hdata : s.data ++ '-' :: natChars i = t.data ++ '-' :: natChars j := by
    have hd := congrArg String.data h
    simpa [String.data_append, natToString, data_mk] using hd
  have hrev : (natChars i).reverse ++ '-' :: s.data.reverse
      = (natChars j).reverse ++ '-' :: t.data.reverse := by
    have hr := congrArg List.reverse hdata
    simpa [List.reverse_append] using hr
  have hdi : ∀ c ∈ (natChars i).reverse, c.isDigit = true := by
    intro c hc
    rw [List.mem_reverse] at hc
    obtain ⟨d, hd, rfl⟩ := natChars_mem i c hc
    exact (digitChar_facts d hd).2.1
  have hdj : ∀ c ∈ (natChars j).reverse, c.isDigit = true := by
    intro c hc
    rw [List.mem_reverse] at hc
    obtain ⟨d, hd, rfl⟩ := natChars_mem j c hc
    exact (digitChar_facts d hd).2.1
  have hrevs := digits_dash_cancel _ _ _ _ hdi hdj hrev
  have hni : natChars i = natChars j := by
    have hr2 := congrArg List.reverse hrevs
    simpa using hr2
  exact natToString_inj i j (by simp [natToString, hni])

/-- The identities produced by one normalization pass are pairwise
distinct, from any starting index. -/
theorem normalizeFrom_ids_nodup :
    ∀ (l : List RawLitematicEntry) (k : Nat),
      ((normalizeFrom k l).map (fun e => e.id)).Nodup := by
  intro l
  induction l with
  | nil =>
    intro k
    simp [normalizeFrom]
  | cons a l ih =>
    intro k
    simp only [normalizeFrom, List.map_cons, List.nodup_cons]
    refine ⟨?_, ih (k + 1)⟩
    intro hmem
    rw [List.mem_map] at hmem
    obtain ⟨e, hemem, heq⟩ := hmem
    obtain ⟨j, r, hj, rfl⟩ := mem_normalizeFrom l (k + 1) e hemem
    have : j = k :=
      id_index_inj r.file a.file j k (by simpa [normalizeEntry] using heq)
    omega

/-- A list with pairwise-distinct images keeps at most one element mapping
to any given value. -/
theorem nodup_filter_len_le_one {α : Type} (f : α → String) :
    ∀ l : List α, ((l.map f).Nodup) →
      ∀ pid, (l.filter (fun e => f e == pid)).length ≤ 1 := by
  intro l
  induction l with
  | nil =>
    intro _ pid
    simp
  | cons a l ih =>
    intro hnd pid
    rw [List.map_cons, List.nodup_cons] at hnd
    by_cases hfa : (f a == pid) = true
    · rw [List.filter_cons, if_pos hfa]
      have hpid : f a = pid := by simpa using hfa
      have hempty : l.filter (fun e => f e == pid) = [] := by
        rw [List.filter_eq_nil_iff]
        intro e he hfe
        apply hnd.1
        rw [List.mem_map]
        exact ⟨e, he, by simpa [hpid] using hfe⟩
      simp [hempty]
    · rw [List.filter_cons, if_neg hfa]
      exact ih hnd.2 pid

/-- Index lookup into the normalized catalog. -/
theorem normalizeFrom_get? :
    ∀ (l : List RawLitematicEntry) (k i : Nat),
      (normalizeFrom k l).get? i
        = (l.get? i).map (fun r => normalizeEntry (k + i) r) := by
  intro l
  induction l with
  | nil =>
    intro k i
    simp [normalizeFrom]
  | cons a l ih =>
    intro k i
    rcases i with _ | i
    · simp [normalizeFrom]
    · have harr : k + 1 + i = k + (i + 1) := by omega
      have hstep : normalizeFrom k (a :: l)
          = normalizeEntry k a :: normalizeFrom (k + 1) l := rfl
      rw [hstep, List.get?_cons_succ, List.get?_cons_succ, ih (k + 1) i, harr]

/-- C10: within one load, every normalized entry's id is its file name,
a dash, and its load-order index; the ids are pairwise distinct; hence a
preview identifier matched against ids selects at most one entry. -/
theorem entry_ids_distinct (raws : List RawLitematicEntry) :
    ((loadEntries raws).map (fun e => e.id)).Nodup
    ∧ (∀ (i : Nat) (e : Entry), (loadEntries raws).get? i = some e →
        e.id = e.file ++ "-" ++ natToString i)
    ∧ (∀ pid : String,
        ((loadEntries raws).filter (fun e => e.id == pid)).length ≤ 1) := by
  have hnd := normalizeFrom_ids_nodup raws 0
  refine ⟨hnd, ?_,
    fun pid => nodup_filter_len_le_one (fun e : Entry => e.id) _ hnd pid⟩
  intro i e hget
  rw [loadEntries, normalizeFrom_get? raws 0 i] at hget
  rcases hri : raws.get? i with _ | r
  · rw [hri] at hget
    simp at hget
  · rw [hri] at hget
    have he : normalizeEntry (0 + i) r = e := by
      simpa using hget
    rw [← he]
    simp [normalizeEntry, Nat.zero_add]

/-- Witness for C10: a one-entry load carries id `demo.litematic-0`. -/
theorem entry_ids_distinct_witness :
    (loadEntries [demoRaw]).get? 0 = some (normalizeEntry 0 demoRaw)
    ∧ (normalizeEntry 0 demoRaw).id
        = (normalizeEntry 0 demoRaw).file ++ "-" ++ natToString 0 :=
  ⟨rfl, (entry_ids_distinct [demoRaw]).2.1 0 (normalizeEntry 0 demoRaw) rfl⟩

end STBrowser
